/-
Verification of the AHP survey tool's numerical core (src/app.js).

The source is JavaScript operating on `number[][]` arrays.  The embedding
models JS numbers by exact rationals `ℚ` for the solver/aggregation parts,
and by an arbitrary linear ordered field (instantiated with `ℝ` and
`Real.log` in the theorems) for the logarithm-based diagnostics.  Decimal
literals of the source (0.58, 1.49, 1e-11, ...) are modelled by the exact
rationals they denote.

Divisions in the solver act on denominators that are strictly positive
whenever the matrix invariants assumed by the claims hold, so plain field
division is a faithful model there.  The one place where the source can
divide zero by zero on valid input — the consistency index at order 1 —
is modelled explicitly: `jsDiv` returns `none` where JavaScript produces
a non-finite number (NaN or ±Infinity).
-/
import Mathlib

namespace AHP

/-- Entry `A[i][j]` of a matrix stored as a list of rows, with the
out-of-bounds default 0 (claims only ever read entries in bounds). -/
def entry {α : Type} [Zero α] (A : List (List α)) (i j : ℕ) : α :=
  (A.getD i []).getD j 0

/-- `identityMatrix(n)` from src/app.js line 26: despite its name it fills
every cell with 1 (the degenerate ternary `i===j ? 1 : 1` of the source
is kept). -/
def identityMatrix (n : ℕ) : List (List ℚ) :=
  (List.range n).map (fun i => (List.range n).map (fun j => if i = j then (1 : ℚ) else 1))

/-- `cloneMatrix(A)` (line 65): `A.map(r => r.slice())` — a value-identical
copy of the rows. -/
def cloneMatrix (A : List (List ℚ)) : List (List ℚ) :=
  A.map (fun r => r)

/-- A single JS array assignment `B[i][j] = v` for an in-bounds position.
`List.set` is a no-op out of bounds, whereas JS would grow the array;
all claims about `setPairwise` stay within the matrix bounds. -/
def setEntry (B : List (List ℚ)) (i j : ℕ) (v : ℚ) : List (List ℚ) :=
  B.set i ((B.getD i []).set j v)

/-- The diagonal pass of `setPairwise` (line 71):
`for(let k=0;k<B.length;k++) B[k][k] = 1`. -/
def setDiagOnes (B : List (List ℚ)) : List (List ℚ) :=
  (List.range B.length).foldl (fun M k => setEntry M k k 1) B

/-- `setPairwise(A,i,j,v)` (lines 67–73): clone, set the cell, set the
reciprocal cell, force the diagonal to 1.  Purity of the source function
(the input array is never written, only its clone) is intrinsic here. -/
def setPairwise (A : List (List ℚ)) (i j : ℕ) (v : ℚ) : List (List ℚ) :=
  setDiagOnes (setEntry (setEntry (cloneMatrix A) i j v) j i (1 / v))

/-- One matrix–vector product `Aw` (lines 81–86 and 97–102): row `i` is
`s = Σ_j A[i][j] * w[j]` accumulated left to right. -/
def matVec (A : List (List ℚ)) (w : List ℚ) : List ℚ :=
  (List.range A.length).map
    (fun i => (List.range A.length).foldl (fun s j => s + entry A i j * w.getD j 0) 0)

/-- The `for(it…)` loop of `powerIterationWeights` (lines 80–95), with an
explicit pass counter in the second component.  Each recursion step is one
loop pass: compute `Aw`, its sum, the normalised `wNew`, the max-abs
difference, assign `w = wNew`, and break early when `diff < tol`. -/
def powerLoop (A : List (List ℚ)) (tol : ℚ) : ℕ → List ℚ → List ℚ × ℕ
  | 0, w => (w, 0)
  | fuel + 1, w =>
    let n := A.length
    let Aw := matVec A w
    let sum := Aw.foldl (fun a b => a + b) 0
    let wNew := Aw.map (fun x => x / sum)
    let diff := (List.range n).foldl (fun d i => max d |wNew.getD i 0 - w.getD i 0|) 0
    if diff < tol then (wNew, 1)
    else
      let rest := powerLoop A tol fuel wNew
      (rest.1, rest.2 + 1)

/-- Result record of `powerIterationWeights`. -/
structure PowerResult where
  weights : List ℚ
  lambdaMax : ℚ
deriving Repr

/-- The default iteration cap of `powerIterationWeights` (line 76). -/
def maxIterDefault : ℕ := 1500

/-- The default convergence tolerance `1e-11` (line 76), as an exact
rational. -/
def tolDefault : ℚ := 1 / 100000000000

/-- `powerIterationWeights(A, maxIter, tol)` (lines 76–106): start from the
uniform vector, run the capped iteration, then estimate the dominant
eigenvalue by `lambdaMax = (Σ_i Aw2[i]/w[i]) / n`, where the indexed
`reduce` over `Aw2` (length `n`) is written as a fold over `range n`. -/
def powerIterationWeights (A : List (List ℚ)) (maxIter : ℕ) (tol : ℚ) : PowerResult :=
  let n := A.length
  let w := (powerLoop A tol maxIter (List.replicate n (1 / (n : ℚ)))).1
  let Aw2 := matVec A w
  let lambdaMax := ((List.range n).foldl (fun a i => a + Aw2.getD i 0 / w.getD i 0) 0) / n
  ⟨w, lambdaMax⟩

/-- The number of loop passes the solver executes on `A` (the second
component of `powerLoop` at the solver's starting vector). -/
def powerIterationCount (A : List (List ℚ)) (maxIter : ℕ) (tol : ℚ) : ℕ :=
  (powerLoop A tol maxIter (List.replicate A.length (1 / (A.length : ℚ)))).2

/-- The Random Index table `RI` (line 8) together with the lookup
`RI[n] ?? 1.49` (line 111): orders 1–10 come from the table, every other
order (including 0) falls back to 1.49. -/
def RI (n : ℕ) : ℚ :=
  if n = 1 then 0
  else if n = 2 then 0
  else if n = 3 then 58 / 100
  else if n = 4 then 90 / 100
  else if n = 5 then 112 / 100
  else if n = 6 then 124 / 100
  else if n = 7 then 132 / 100
  else if n = 8 then 141 / 100
  else if n = 9 then 145 / 100
  else if n = 10 then 149 / 100
  else 149 / 100

/-- JavaScript division restricted to the one site where a zero denominator
can occur on valid input: `none` models the non-finite result (NaN or
±Infinity) JS produces when dividing by 0. -/
def jsDiv (a b : ℚ) : Option ℚ :=
  if b = 0 then none else some (a / b)

/-- Result record of `consistency`.  `ci` is `none` exactly when the JS
value is non-finite (order-1 matrices: `(lambdaMax-1)/0`). -/
structure ConsistencyResult where
  ci : Option ℚ
  cr : ℚ
deriving Repr

/-- `consistency(A, lambdaMax)` (lines 108–114).  When `ri = 0` the source
returns `cr = 0` without dividing; otherwise `n ≠ 1` (since `RI 1 = 0`),
so `ci` is a finite value and `cr = ci / ri`; the `getD 0` default is
never consulted with a non-zero `ri`. -/
def consistency (A : List (List ℚ)) (lambdaMax : ℚ) : ConsistencyResult :=
  let n := A.length
  let ci := jsDiv (lambdaMax - n) ((n : ℚ) - 1)
  let ri := RI n
  let cr := if ri = 0 then 0 else ci.getD 0 / ri
  ⟨ci, cr⟩

/-- Result record of `ahpSolve`. -/
structure SolveResult where
  weights : List ℚ
  lambdaMax : ℚ
  ci : Option ℚ
  cr : ℚ
deriving Repr

/-- `ahpSolve(A)` (lines 116–120), calling the solver with its default
iteration cap and tolerance. -/
def ahpSolve (A : List (List ℚ)) : SolveResult :=
  let p := powerIterationWeights A maxIterDefault tolDefault
  let c := consistency A p.lambdaMax
  ⟨p.weights, p.lambdaMax, c.ci, c.cr⟩

/-- The score loop of `computeResults` (lines 691–698): for every
alternative `i < m`, `scores[i] = Σ_{j<n} critWeights[j] * altWeights[j][i]`,
accumulated left to right exactly as in the source.  In the source `m` is
`st.alternatives.length`, `n` is `st.criteria.length`, `critWeights` the
criteria solve's weights and `altWeights` the per-criterion alternative
weights. -/
def aggregateScores (m n : ℕ) (critWeights : List ℚ) (altWeights : List (List ℚ)) : List ℚ :=
  (List.range m).map
    (fun i => (List.range n).foldl
      (fun s j => s + critWeights.getD j 0 * (altWeights.getD j []).getD i 0) 0)

/-- The ranking step of `computeResults` (lines 700–702):
`alternatives.map((name,i)=>({name,score:scores[i]})).sort((a,b)=>b.score-a.score)`.
ECMAScript's `Array.prototype.sort` is required to be stable, and the
comparator orders by score descending; a stable insertion sort with the
relation "later score ≤ earlier score" is the value-level model of that. -/
def rankingOf (names : List String) (scores : List ℚ) : List (String × ℚ) :=
  List.insertionSort (fun a b : String × ℚ => b.2 ≤ a.2)
    (names.enum.map (fun p => (p.2, scores.getD p.1 0)))

section Persistence

/-- A fragment of a parsed JSON value, typed no further than `loadState`
inspects it: a number, an array, or anything else. -/
inductive JVal where
  | num (q : ℚ)
  | arr (l : List JVal)
  | other

/-- `Array.isArray`. -/
def isArr : JVal → Bool
  | .arr _ => true
  | _ => false

/-- `.length` of a value known to be an array (only consulted on arrays). -/
def jLen : JVal → ℕ
  | .arr l => l.length
  | _ => 0

/-- The elements of an array value. -/
def jElems : JVal → List JVal
  | .arr l => l
  | _ => []

/-- The `problem` object; its payload is irrelevant to the claims. -/
structure Problem where
  name : String
  goal : String

/-- The result of `JSON.parse` on a persisted snapshot, typed only as far
as `loadState` checks it.  `none` fields model a missing/falsy `problem`
and non-array `criteria`/`alternatives` (the guard on line 41);
`activeCritIdx` is `some q` when the stored value has type number.  The
source never checks the element types of `criteria`/`alternatives`, and
only their count matters here, so labels are typed as strings. -/
structure RawState where
  problem : Option Problem
  criteria : Option (List String)
  alternatives : Option (List String)
  criteriaMatrix : JVal
  altMatrices : JVal
  activeCritIdx : Option ℚ

/-- The in-memory application state produced by `loadState`.  Matrices are
kept as raw JSON fragments: `loadState` returns whatever passed its
checks. -/
structure AppState where
  problem : Problem
  criteria : List String
  alternatives : List String
  criteriaMatrix : JVal
  altMatrices : JVal
  activeCritIdx : ℚ

/-- `identityMatrix(n)` (line 26) as the JSON value it denotes. -/
def identityMatrixJ (n : ℕ) : JVal :=
  .arr ((List.range n).map
    (fun i => .arr ((List.range n).map (fun j => .num (if i = j then 1 else 1)))))

/-- `initMatrices(st)` (lines 30–33): rebuild both matrix levels from the
all-ones neutral state at the current label-list sizes. -/
def initMatrices (st : AppState) : AppState :=
  { st with
    criteriaMatrix := identityMatrixJ st.criteria.length
    altMatrices := .arr (st.criteria.map (fun _ => identityMatrixJ st.alternatives.length)) }

/-- `defaultState()` (lines 11–24). -/
def defaultState : AppState :=
  initMatrices
    { problem := ⟨"Logistics", "Select the best warehouse location"⟩
      criteria := ["Transportation cost", "Delivery lead time", "Service reliability"]
      alternatives := ["Location A", "Location B", "Location C"]
      criteriaMatrix := .arr []
      altMatrices := .arr []
      activeCritIdx := 0 }

/-- `loadState()` (lines 35–58).  `none` input covers the missing-key and
parse-failure branches (both return `defaultState`).  The remaining code
is the guard of line 41 followed by the sequential repair of lines 43–52;
each failed check rebuilds both matrix levels via `initMatrices`.  The
function is total: no branch surfaces an error. -/
def loadState (raw : Option RawState) : AppState :=
  match raw with
  | none => defaultState
  | some st0 =>
    match st0.problem, st0.criteria, st0.alternatives with
    | some p, some cs, some al =>
      let idx0 := st0.activeCritIdx.getD 0
      let idx1 := if idx0 < 0 then 0 else idx0
      let idx2 := if (cs.length : ℚ) ≤ idx1 then 0 else idx1
      let stA : AppState := ⟨p, cs, al, st0.criteriaMatrix, st0.altMatrices, idx2⟩
      let stB := if ¬ (isArr stA.criteriaMatrix ∧ isArr stA.altMatrices)
                 then initMatrices stA else stA
      let stC := if jLen stB.criteriaMatrix ≠ cs.length then initMatrices stB else stB
      let stD := if jLen stC.altMatrices ≠ cs.length then initMatrices stC else stC
      let stE := if (jElems stD.altMatrices).any
                      (fun m => !(isArr m) || jLen m ≠ al.length)
                 then initMatrices stD else stD
      stE
    | _, _, _ => defaultState

/-- The outer-dimension discipline that `loadState` actually enforces on
matrices (spec §7, as far as the checks of lines 43–52 reach): both matrix
levels are arrays, the criteria matrix has `|criteria|` rows, and
`altMatrices` holds `|criteria|` arrays of `|alternatives|` rows each.
Row lengths are never inspected. -/
def MatricesWellFormed (st : AppState) : Prop :=
  isArr st.criteriaMatrix = true ∧
  jLen st.criteriaMatrix = st.criteria.length ∧
  isArr st.altMatrices = true ∧
  jLen st.altMatrices = st.criteria.length ∧
  ∀ m ∈ jElems st.altMatrices, isArr m = true ∧ jLen m = st.alternatives.length

end Persistence

section Diagnostics

variable {α : Type} [LinearOrderedField α]

/-- One suggested check produced by `inconsistencyHints`.  The source
record is `{score, text}` where `text` interpolates `labels[i]`,
`labels[j]` and `labels[bestK]`; the embedding keeps the three indices the
text is built from alongside the rendered text. -/
structure Hint (α : Type) where
  score : α
  i : ℕ
  j : ℕ
  k : ℕ
  text : String

/-- One pass of the witness loop of `inconsistencyHints`
(lines 165–175): skip `k ∈ {i,j}`, skip non-positive
`via = A[i][k]*A[k][j]` (the `Number.isFinite` test is vacuous in a field
model), track the strictly largest `d = |log direct − log via|` seen so
far together with its first witness. -/
def bwStep (lg : α → α) (A : List (List α)) (i j : ℕ) (bk : α × Option ℕ) (k : ℕ) :
    α × Option ℕ :=
  if k = i ∨ k = j then bk
  else
    let via := entry A i k * entry A k j
    if via ≤ 0 then bk
    else
      let d := |lg (entry A i j) - lg via|
      if bk.1 < d then (d, some k) else bk

/-- The witness loop of `inconsistencyHints` (lines 162–175).
`(0, none)` is the initial `best = 0, bestK = -1`. -/
def bestWitnessFold (lg : α → α) (A : List (List α)) (n i j : ℕ) : α × Option ℕ :=
  (List.range n).foldl (bwStep lg A i j) (0, none)

/-- `inconsistencyHints(labels, A, topK)` (lines 153–188), parametric in
the logarithm (`Math.log` becomes `Real.log` in the theorems).  The pair
loop `i < j < n` pushes a hint whenever `bestK >= 0`, then the issue list
is sorted by score descending (a stable JS sort) and cut to `topK`. -/
def inconsistencyHints (lg : α → α) (labels : List String) (A : List (List α))
    (topK : ℕ) : List (Hint α) :=
  let n := labels.length
  let issues := (List.range n).flatMap
    (fun i => (List.range' (i + 1) (n - (i + 1))).filterMap
      (fun j =>
        let direct := entry A i j
        if direct ≤ 0 then none
        else
          match bestWitnessFold lg A n i j with
          | (best, some bk) =>
            some ⟨best, i, j, bk,
              labels.getD i "" ++ " vs " ++ labels.getD j "" ++
                " (check with " ++ labels.getD bk "" ++ ")"⟩
          | (_, none) => none))
  (List.insertionSort (fun a b : Hint α => b.score ≤ a.score) issues).take topK

/-- Spec side (§4.4 of the specification): `k` is a usable witness for the
pair `(i,j)` when it is a third in-range index whose indirect estimate
`via` is strictly positive. -/
def witOK (A : List (List α)) (n i j k : ℕ) : Prop :=
  k < n ∧ k ≠ i ∧ k ≠ j ∧ 0 < entry A i k * entry A k j

/-- Spec side: the disagreement `d = |ln(direct) − ln(via)|` of witness
`k` for the pair `(i,j)`. -/
def disag (lg : α → α) (A : List (List α)) (i j k : ℕ) : α :=
  |lg (entry A i j) - lg (entry A i k * entry A k j)|

/-- Spec side: the set of usable witnesses of a pair. -/
def witnessSet (A : List (List α)) (n i j : ℕ) : Finset ℕ :=
  (Finset.range n).filter (fun k => k ≠ i ∧ k ≠ j ∧ 0 < entry A i k * entry A k j)

/-- Spec side: the maximal disagreement over the usable witnesses (0 when
there is none; only consulted on pairs that have one). -/
def maxDisag (lg : α → α) (A : List (List α)) (n i j : ℕ) : α :=
  if h : (witnessSet A n i j).Nonempty
  then (witnessSet A n i j).sup' h (disag lg A i j)
  else 0

/-- Spec side, modelled from the spec's words (§4.4) as amended by the
strictness the code forces: the recorded diagnostics, one triple
`(i, j, score)` per pair `i < j` whose direct judgment is strictly
positive and which has a usable witness with strictly positive
disagreement; the score is the maximal disagreement over all usable
witnesses. -/
def specEntries (lg : α → α) (A : List (List α)) (n : ℕ) : List (ℕ × ℕ × α) :=
  (List.range n).flatMap
    (fun i => (List.range' (i + 1) (n - (i + 1))).filterMap
      (fun j =>
        if 0 < entry A i j ∧ ∃ k ∈ witnessSet A n i j, 0 < disag lg A i j k
        then some (i, j, maxDisag lg A n i j)
        else none))

end Diagnostics

/-- Squareness invariant used while tracing the diagonal pass of
`setPairwise`. -/
def Square (n : ℕ) (A : List (List ℚ)) : Prop :=
  A.length = n ∧ ∀ i < n, (A.getD i []).length = n

instance (n : ℕ) (A : List (List ℚ)) : Decidable (Square n A) :=
  inferInstanceAs (Decidable (_ ∧ _))

/-- All entries of the order-`n` block are strictly positive (the spec's
"strictly positive finite entries"; finiteness is vacuous over `ℚ`). -/
def PosEntries (n : ℕ) (A : List (List ℚ)) : Prop :=
  ∀ i < n, ∀ j < n, 0 < entry A i j

/-- The reciprocity invariant `A[j][i] = 1 / A[i][j]` of the spec. -/
def Reciprocal (n : ℕ) (A : List (List ℚ)) : Prop :=
  ∀ i < n, ∀ j < n, entry A j i = 1 / entry A i j

/-! ### Generic list and fold lemmas -/

theorem foldl_add_eq {β : Type} (g : β → ℚ) :
    ∀ (l : List β) (c : ℚ), l.foldl (fun s j => s + g j) c = c + (l.map g).sum := by
  intro l
  induction l with
  | nil => intro c; simp
  | cons a t ih => intro c; simp [ih, add_assoc]

theorem foldl_plain_add : ∀ (l : List ℚ) (c : ℚ), l.foldl (fun a b => a + b) c = c + l.sum := by
  intro l
  induction l with
  | nil => intro c; simp
  | cons a t ih => intro c; simp [ih, add_assoc]

theorem sum_map_range (g : ℕ → ℚ) (n : ℕ) :
    ((List.range n).map g).sum = ∑ i in Finset.range n, g i := rfl

theorem getD_map_range {β : Type} (g : ℕ → β) (d : β) {n i : ℕ} (h : i < n) :
    ((List.range n).map g).getD i d = g i := by
  rw [List.getD_eq_getElem?_getD]
  simp [List.getElem?_eq_getElem, h]

theorem sum_eq_range_getD (l : List ℚ) :
    l.sum = ∑ i in Finset.range l.length, l.getD i 0 := by
  induction l with
  | nil => simp
  | cons a t ih => simp [Finset.sum_range_succ', ih, add_comm]

theorem getD_replicate_lt {n i : ℕ} (a : ℚ) (h : i < n) :
    (List.replicate n a).getD i 0 = a := by
  rw [List.getD_eq_getElem?_getD]
  simp [List.getElem?_eq_getElem, h]

theorem foldl_max_abs_self (w : List ℚ) :
    ∀ (l : List ℕ) (c : ℚ), 0 ≤ c →
      l.foldl (fun d i => max d |w.getD i 0 - w.getD i 0|) c = c := by
  intro l
  induction l with
  | nil => intro c _; simp
  | cons a t ih =>
    intro c hc
    simp only [List.foldl_cons]
    have h1 : c ⊔ |w.getD a 0 - w.getD a 0| = c := by simp [hc]
    rw [h1]
    exact ih c hc

/-! ### Entry-level lemmas for `setEntry`, `setDiagOnes`, `setPairwise` -/

theorem cloneMatrix_eq (A : List (List ℚ)) : cloneMatrix A = A := by
  simp [cloneMatrix]

theorem length_setEntry (B : List (List ℚ)) (i j : ℕ) (v : ℚ) :
    (setEntry B i j v).length = B.length := by
  simp [setEntry]

theorem row_setEntry_same {B : List (List ℚ)} {i : ℕ} (j : ℕ) (v : ℚ) (h : i < B.length) :
    (setEntry B i j v).getD i [] = (B.getD i []).set j v := by
  simp [setEntry, List.getD_eq_getElem?_getD, List.getElem?_set_self', h]

theorem row_setEntry_other {B : List (List ℚ)} {i p : ℕ} (j : ℕ) (v : ℚ) (h : p ≠ i) :
    (setEntry B i j v).getD p [] = B.getD p [] := by
  simp [setEntry, List.getD_eq_getElem?_getD, List.getElem?_set_ne (Ne.symm h)]

theorem rowlen_setEntry (B : List (List ℚ)) (i j p : ℕ) (v : ℚ) :
    ((setEntry B i j v).getD p []).length = (B.getD p []).length := by
  by_cases hp : p = i
  · subst hp
    by_cases h : p < B.length
    · rw [row_setEntry_same j v h]; simp
    · have hlen : B.length ≤ p := Nat.le_of_not_lt h
      simp [setEntry, List.set_eq_of_length_le hlen]
  · rw [row_setEntry_other j v hp]

theorem entry_setEntry_self {B : List (List ℚ)} {i j : ℕ} (v : ℚ)
    (hi : i < B.length) (hj : j < (B.getD i []).length) :
    entry (setEntry B i j v) i j = v := by
  rw [entry, row_setEntry_same j v hi, List.getD_eq_getElem?_getD, List.getElem?_set_self',
    List.getElem?_eq_getElem hj]
  rfl

theorem entry_setEntry_ne {B : List (List ℚ)} {i j p q : ℕ} (v : ℚ)
    (h : p ≠ i ∨ q ≠ j) :
    entry (setEntry B i j v) p q = entry B p q := by
  rcases h with h | h
  · rw [entry, row_setEntry_other j v h, entry]
  · by_cases hp : p = i
    · subst hp
      by_cases hlt : p < B.length
      · rw [entry, row_setEntry_same j v hlt, entry]
        simp [List.getD_eq_getElem?_getD, List.getElem?_set_ne (Ne.symm h)]
      · have hlen : B.length ≤ p := Nat.le_of_not_lt hlt
        simp [entry, setEntry, List.set_eq_of_length_le hlen]
    · rw [entry, row_setEntry_other j v hp, entry]

theorem Square.setEntry {n : ℕ} {B : List (List ℚ)} (hB : Square n B) (i j : ℕ) (v : ℚ) :
    Square n (setEntry B i j v) := by
  refine ⟨by rw [length_setEntry, hB.1], fun p hp => ?_⟩
  rw [rowlen_setEntry]
  exact hB.2 p hp

theorem entry_foldl_diag {n : ℕ} :
    ∀ (ks : List ℕ) (B : List (List ℚ)), Square n B → (∀ k ∈ ks, k < n) →
      Square n (ks.foldl (fun M k => setEntry M k k 1) B) ∧
      ∀ p q, entry (ks.foldl (fun M k => setEntry M k k 1) B) p q =
        if p = q ∧ p ∈ ks then 1 else entry B p q := by
  intro ks
  induction ks with
  | nil =>
    intro B hB _
    refine ⟨hB, fun p q => ?_⟩
    simp
  | cons k ks ih =>
    intro B hB hks
    have hk : k < n := hks k (List.mem_cons_self k ks)
    have hB' : Square n (setEntry B k k 1) := hB.setEntry k k 1
    have hrest := ih (setEntry B k k 1) hB' (fun a ha => hks a (List.mem_cons_of_mem k ha))
    refine ⟨hrest.1, fun p q => ?_⟩
    rw [List.foldl_cons, hrest.2 p q]
    by_cases hpq : p = q
    · subst hpq
      by_cases hmem : p ∈ ks
      · simp [hmem]
      · by_cases hpk : p = k
        · subst hpk
          have h1 : entry (setEntry B p p 1) p p = 1 := by
            apply entry_setEntry_self 1
            · rw [hB.1]; exact hk
            · rw [hB.2 p hk]; exact hk
          simp [hmem, h1]
        · have := entry_setEntry_ne (B := B) (i := k) (j := k) (p := p) (q := p) 1 (Or.inl hpk)
          simp [hmem, hpk, this]
    · have hne : p ≠ k ∨ q ≠ k := by
        by_cases hpk : p = k
        · right; intro hqk; exact hpq (hpk.trans hqk.symm)
        · left; exact hpk
      have := entry_setEntry_ne (B := B) (i := k) (j := k) (p := p) (q := q) 1 hne
      simp [hpq, this]

/-! ### C2: `setPairwise` is a local reciprocal update -/

/-- C2: for every matrix `A` satisfying the PairwiseMatrix invariants used
by this conclusion (squareness and unit diagonal; positivity and
reciprocity are not needed), indices `i ≠ j` in bounds and `v > 0`,
`setPairwise A i j v` has `v` at `(i,j)`, `1/v` at `(j,i)`, `1` on the
whole diagonal, and agrees with `A` everywhere else.  The input `A` is
left unchanged: the embedding of `setPairwise` only rebuilds a value from
`cloneMatrix A`, mirroring that the source writes only to the clone. -/
theorem setPairwise_local_update {n : ℕ} {A : List (List ℚ)} {i j : ℕ} {v : ℚ}
    (hA : Square n A) (hdiag : ∀ k < n, entry A k k = 1)
    (hi : i < n) (hj : j < n) (hij : i ≠ j) (hv : 0 < v) :
    entry (setPairwise A i j v) i j = v ∧
    entry (setPairwise A i j v) j i = 1 / v ∧
    (∀ k < n, entry (setPairwise A i j v) k k = 1) ∧
    (∀ p q, p < n → q < n → ¬(p = i ∧ q = j) → ¬(p = j ∧ q = i) →
      entry (setPairwise A i j v) p q = entry A p q) := by
  have hB1 : Square n (setEntry A i j v) := hA.setEntry i j v
  have hB2 : Square n (setEntry (setEntry A i j v) j i (1 / v)) := hB1.setEntry j i (1 / v)
  have hunf : setPairwise A i j v =
      (List.range n).foldl (fun M k => setEntry M k k 1)
        (setEntry (setEntry A i j v) j i (1 / v)) := by
    rw [setPairwise, cloneMatrix_eq, setDiagOnes, hB2.1]
  obtain ⟨hSq, hent⟩ := entry_foldl_diag (List.range n)
    (setEntry (setEntry A i j v) j i (1 / v)) hB2 (fun k hk => List.mem_range.1 hk)
  have hij' : entry (setPairwise A i j v) i j = v := by
    rw [hunf, hent i j, if_neg (by simp [hij])]
    rw [entry_setEntry_ne (1 / v) (Or.inl hij)]
    exact entry_setEntry_self v (by rw [hA.1]; exact hi) (by rw [hA.2 i hi]; exact hj)
  have hji' : entry (setPairwise A i j v) j i = 1 / v := by
    rw [hunf, hent j i, if_neg (by simp [Ne.symm hij])]
    exact entry_setEntry_self (1 / v) (by rw [hB1.1]; exact hj) (by rw [hB1.2 j hj]; exact hi)
  refine ⟨hij', hji', fun k hk => ?_, fun p q hp hq hpq1 hpq2 => ?_⟩
  · rw [hunf, hent k k, if_pos ⟨rfl, List.mem_range.2 hk⟩]
  · rw [hunf, hent p q]
    by_cases hpq : p = q
    · subst hpq
      rw [if_pos ⟨rfl, List.mem_range.2 hp⟩, hdiag p hp]
    · rw [if_neg (by simp [hpq])]
      have h2 : p ≠ j ∨ q ≠ i := by
        by_cases hpj : p = j
        · right; intro hqi; exact hpq2 ⟨hpj, hqi⟩
        · left; exact hpj
      have h1 : p ≠ i ∨ q ≠ j := by
        by_cases hpi : p = i
        · right; intro hqj; exact hpq1 ⟨hpi, hqj⟩
        · left; exact hpi
      rw [entry_setEntry_ne (1 / v) h2, entry_setEntry_ne v h1]

/-- Witness for C2 at a concrete 3×3 reciprocal matrix, `i=0`, `j=1`,
`v=5`. -/
theorem setPairwise_local_update_witness :
    (Square 3 [[1, 2, 3], [1/2, 1, 1], [1/3, 1, 1]] ∧
      (∀ k < 3, entry [[1, 2, 3], [1/2, 1, 1], [1/3, 1, 1]] k k = 1) ∧
      (0:ℕ) < 3 ∧ (1:ℕ) < 3 ∧ (0:ℕ) ≠ 1 ∧ (0:ℚ) < 5) ∧
    (entry (setPairwise [[1, 2, 3], [1/2, 1, 1], [1/3, 1, 1]] 0 1 5) 0 1 = 5 ∧
      entry (setPairwise [[1, 2, 3], [1/2, 1, 1], [1/3, 1, 1]] 0 1 5) 1 0 = 1 / 5 ∧
      (∀ k < 3, entry (setPairwise [[1, 2, 3], [1/2, 1, 1], [1/3, 1, 1]] 0 1 5) k k = 1) ∧
      (∀ p q, p < 3 → q < 3 → ¬(p = 0 ∧ q = 1) → ¬(p = 1 ∧ q = 0) →
        entry (setPairwise [[1, 2, 3], [1/2, 1, 1], [1/3, 1, 1]] 0 1 5) p q =
          entry [[1, 2, 3], [1/2, 1, 1], [1/3, 1, 1]] p q)) :=
  ⟨⟨by unfold Square; decide, by decide, by decide, by decide, by decide, by decide⟩,
    setPairwise_local_update (by unfold Square; decide) (by decide) (by decide) (by decide)
      (by decide) (by decide)⟩

/-! ### C8: the power iteration loop is capped -/

theorem powerLoop_pass_bound (A : List (List ℚ)) (tol : ℚ) :
    ∀ (fuel : ℕ) (w : List ℚ), (powerLoop A tol fuel w).2 ≤ fuel := by
  intro fuel
  induction fuel with
  | zero => intro w; simp [powerLoop]
  | succ f ih =>
    intro w
    simp only [powerLoop]
    split
    · simp
    · simpa using ih _

/-- C8: for every input matrix (any order, any rational entries) and any
cap and tolerance, the solver's loop executes at most `maxIter` passes —
in particular at most 1500 with the source's defaults — so
`powerIterationWeights` always terminates. -/
theorem powerIteration_pass_count_le (A : List (List ℚ)) (maxIter : ℕ) (tol : ℚ) :
    powerIterationCount A maxIter tol ≤ maxIter ∧
    powerIterationCount A maxIterDefault tolDefault ≤ 1500 :=
  ⟨powerLoop_pass_bound A tol maxIter _, powerLoop_pass_bound A tolDefault maxIterDefault _⟩

/-! ### C4: the consistency evaluator's Random Index and `cr` rule -/

set_option maxHeartbeats 1000000 in
/-- C4: the consistency evaluator uses Saaty's table for orders 1–10 and
the fallback constant 1.49 beyond order 10, returns `cr = 0` whenever the
random index is 0, and `cr = ci / ri` otherwise. -/
theorem consistency_uses_RI (A : List (List ℚ)) (lambdaMax : ℚ) :
    (RI 1 = 0 ∧ RI 2 = 0 ∧ RI 3 = 58/100 ∧ RI 4 = 90/100 ∧ RI 5 = 112/100 ∧
      RI 6 = 124/100 ∧ RI 7 = 132/100 ∧ RI 8 = 141/100 ∧ RI 9 = 145/100 ∧
      RI 10 = 149/100) ∧
    (∀ n : ℕ, 10 < n → RI n = 149/100) ∧
    (RI A.length = 0 → (consistency A lambdaMax).cr = 0) ∧
    (RI A.length ≠ 0 →
      (consistency A lambdaMax).cr =
        ((lambdaMax - A.length) / ((A.length : ℚ) - 1)) / RI A.length) := by
  refine ⟨⟨rfl, rfl, rfl, rfl, rfl, rfl, rfl, rfl, rfl, rfl⟩, ?_, ?_, ?_⟩
  · intro n hn
    rw [RI]
    split_ifs <;> first | rfl | (exfalso; omega)
  · intro h
    simp [consistency, h]
  · intro h
    have hn1 : A.length ≠ 1 := by
      intro he
      rw [he] at h
      simp [RI] at h
    have hcast : ((A.length : ℚ) - 1) ≠ 0 := by
      intro he
      apply hn1
      have h1 : (A.length : ℚ) = 1 := by linarith
      exact_mod_cast h1
    simp [consistency, jsDiv, hcast, h]

/-! ### C1: solving the all-ones neutral matrix -/

theorem length_identityMatrix (n : ℕ) : (identityMatrix n).length = n := by
  simp [identityMatrix]

theorem entry_identityMatrix {n i j : ℕ} (hi : i < n) (hj : j < n) :
    entry (identityMatrix n) i j = 1 := by
  rw [entry, identityMatrix, getD_map_range _ _ hi, getD_map_range _ _ hj, ite_self]

theorem matVec_neutral_uniform {n : ℕ} (hn : 1 ≤ n) :
    matVec (identityMatrix n) (List.replicate n (1 / (n : ℚ))) = List.replicate n 1 := by
  have hne : (n : ℚ) ≠ 0 := by
    have : 0 < n := hn
    exact_mod_cast this.ne'
  rw [matVec, length_identityMatrix]
  have hrow : ∀ i ∈ List.range n,
      (List.range n).foldl
        (fun s j => s + entry (identityMatrix n) i j *
          (List.replicate n (1 / (n : ℚ))).getD j 0) 0 = 1 := by
    intro i hi
    have hi' : i < n := List.mem_range.1 hi
    rw [foldl_add_eq, zero_add, sum_map_range]
    have hterm : ∀ j ∈ Finset.range n,
        entry (identityMatrix n) i j * (List.replicate n (1 / (n : ℚ))).getD j 0 =
          1 / (n : ℚ) := by
      intro j hj
      have hj' : j < n := Finset.mem_range.1 hj
      rw [entry_identityMatrix hi' hj', getD_replicate_lt _ hj', one_mul]
    rw [Finset.sum_congr rfl hterm, Finset.sum_const, Finset.card_range, nsmul_eq_mul,
      mul_one_div, div_self hne]
  rw [List.map_congr_left hrow]
  simp [List.map_const']

theorem powerLoop_neutral {n : ℕ} (hn : 1 ≤ n) (fuel : ℕ) :
    powerLoop (identityMatrix n) tolDefault (fuel + 1) (List.replicate n (1 / (n : ℚ))) =
      (List.replicate n (1 / (n : ℚ)), 1) := by
  have hne : (n : ℚ) ≠ 0 := by
    have : 0 < n := hn
    exact_mod_cast this.ne'
  rw [powerLoop]
  rw [matVec_neutral_uniform hn]
  have hsum : (List.replicate n (1 : ℚ)).foldl (fun a b => a + b) 0 = (n : ℚ) := by
    rw [foldl_plain_add, zero_add, List.sum_replicate, nsmul_eq_mul, mul_one]
  rw [hsum]
  have hmap : (List.replicate n (1 : ℚ)).map (fun x => x / (n : ℚ)) =
      List.replicate n (1 / (n : ℚ)) := by
    rw [List.map_replicate]
  rw [hmap, length_identityMatrix]
  have hdiff : (List.range n).foldl
      (fun d i => max d |(List.replicate n (1 / (n : ℚ))).getD i 0 -
        (List.replicate n (1 / (n : ℚ))).getD i 0|) 0 = 0 :=
    foldl_max_abs_self _ (List.range n) 0 le_rfl
  rw [hdiff, if_pos (by norm_num [tolDefault])]

theorem powerIterationWeights_neutral {n : ℕ} (hn : 1 ≤ n) :
    powerIterationWeights (identityMatrix n) maxIterDefault tolDefault =
      ⟨List.replicate n (1 / (n : ℚ)), n⟩ := by
  have hne : (n : ℚ) ≠ 0 := by
    have : 0 < n := hn
    exact_mod_cast this.ne'
  rw [powerIterationWeights, length_identityMatrix]
  have hcap : maxIterDefault = 1499 + 1 := rfl
  rw [hcap, powerLoop_neutral hn 1499]
  rw [matVec_neutral_uniform hn]
  have hfold : (List.range n).foldl
      (fun a i => a + (List.replicate n (1 : ℚ)).getD i 0 /
        (List.replicate n (1 / (n : ℚ))).getD i 0) 0 = (n : ℚ) * n := by
    rw [foldl_add_eq, zero_add, sum_map_range]
    have hterm : ∀ i ∈ Finset.range n,
        (List.replicate n (1 : ℚ)).getD i 0 /
          (List.replicate n (1 / (n : ℚ))).getD i 0 = (n : ℚ) := by
      intro i hi
      have hi' : i < n := Finset.mem_range.1 hi
      rw [getD_replicate_lt _ hi', getD_replicate_lt _ hi', one_div_one_div]
    rw [Finset.sum_congr rfl hterm, Finset.sum_const, Finset.card_range, nsmul_eq_mul]
  rw [hfold, mul_div_assoc, div_self hne, mul_one]

/-- C1 counterexample: on the order-1 neutral matrix the source computes
`ci = (1-1)/(1-1) = 0/0`, which is NaN in JavaScript (modelled `none`),
not the 0 the claim states. -/
theorem ahpSolve_neutral_order_one_ci :
    (ahpSolve (identityMatrix 1)).ci = none ∧ (ahpSolve (identityMatrix 1)).ci ≠ some 0 := by
  have hci : (ahpSolve (identityMatrix 1)).ci = none := by
    rw [ahpSolve, powerIterationWeights_neutral le_rfl, consistency]
    simp [jsDiv, length_identityMatrix]
  exact ⟨hci, by rw [hci]; simp⟩

/-- C1 amended: for every order `n ≥ 1`, `ahpSolve` on the all-ones
neutral matrix returns the uniform weights, `lambdaMax = n` and `cr = 0`;
`ci = 0` holds for `n ≥ 2`, while for `n = 1` the `ci` division is
`0/0` — a non-finite JS value (`none`), not 0. -/
theorem ahpSolve_neutral (n : ℕ) (hn : 1 ≤ n) :
    ahpSolve (identityMatrix n) =
      ⟨List.replicate n (1 / (n : ℚ)), n, if n = 1 then none else some 0, 0⟩ := by
  rw [ahpSolve, powerIterationWeights_neutral hn]
  have hlen : (identityMatrix n).length = n := length_identityMatrix n
  have hci : (consistency (identityMatrix n) n).ci = if n = 1 then none else some 0 := by
    rw [consistency]
    simp only [hlen]
    by_cases h1 : n = 1
    · subst h1
      simp [jsDiv]
    · have hcast : ((n : ℚ) - 1) ≠ 0 := by
        intro he
        apply h1
        have : (n : ℚ) = 1 := by linarith
        exact_mod_cast this
      simp [jsDiv, hcast, h1]
  have hcr : (consistency (identityMatrix n) n).cr = 0 := by
    rw [consistency]
    simp only [hlen]
    by_cases hri : RI n = 0
    · simp [hri]
    · have h1 : n ≠ 1 := by
        intro he
        rw [he] at hri
        simp [RI] at hri
      have hcast : ((n : ℚ) - 1) ≠ 0 := by
        intro he
        apply h1
        have : (n : ℚ) = 1 := by linarith
        exact_mod_cast this
      simp [jsDiv, hcast, hri]
  rw [SolveResult.mk.injEq]
  exact ⟨rfl, rfl, hci, hcr⟩

/-- Witness for C1 (amended) at order 3. -/
theorem ahpSolve_neutral_witness :
    (1 : ℕ) ≤ 3 ∧
    ahpSolve (identityMatrix 3) = ⟨List.replicate 3 (1 / (3 : ℚ)), 3, some 0, 0⟩ := by
  refine ⟨by norm_num, ?_⟩
  have h := ahpSolve_neutral 3 (by norm_num)
  simpa using h

/-- Witness for C4 at order 12 (fallback row of the table) and
`lambdaMax = 13`. -/
theorem consistency_uses_RI_witness :
    ((10:ℕ) < 12 ∧ RI (List.replicate 12 ([] : List ℚ)).length ≠ 0) ∧
    RI 12 = 149/100 ∧
    (consistency (List.replicate 12 ([] : List ℚ)) 13).cr =
      ((13 - (List.replicate 12 ([] : List ℚ)).length) /
        (((List.replicate 12 ([] : List ℚ)).length : ℚ) - 1)) /
        RI (List.replicate 12 ([] : List ℚ)).length := by
  have h := consistency_uses_RI (List.replicate 12 ([] : List ℚ)) 13
  refine ⟨⟨by norm_num, by simp [RI]⟩, h.2.1 12 (by norm_num), h.2.2.2 (by simp [RI])⟩

/-! ### C6: the aggregation step preserves total mass -/

set_option maxHeartbeats 800000 in
/-- C6: for criteria weights of length `n` summing to 1 and `n` alternative
weight vectors of length `m` each summing to 1, the aggregation loop of
`computeResults` yields `score[i] = Σ_j wC[j]·wA_j[i]`, and the scores sum
to exactly 1 in exact arithmetic. -/
theorem aggregateScores_convex (m n : ℕ) (wC : List ℚ) (wAs : List (List ℚ))
    (hCl : wC.length = n) (hCs : wC.sum = 1) (hAl : wAs.length = n)
    (hA : ∀ w ∈ wAs, w.length = m ∧ w.sum = 1) :
    (∀ i < m, (aggregateScores m n wC wAs).getD i 0 =
      ∑ j in Finset.range n, wC.getD j 0 * (wAs.getD j []).getD i 0) ∧
    (aggregateScores m n wC wAs).sum = 1 := by
  have hrow : ∀ i,
      (List.range n).foldl (fun s j => s + wC.getD j 0 * (wAs.getD j []).getD i 0) 0 =
        ∑ j in Finset.range n, wC.getD j 0 * (wAs.getD j []).getD i 0 := by
    intro i
    rw [foldl_add_eq, zero_add, sum_map_range]
  constructor
  · intro i hi
    rw [aggregateScores, getD_map_range _ _ hi, hrow]
  · rw [aggregateScores, sum_map_range]
    calc (∑ i in Finset.range m,
            (List.range n).foldl (fun s j => s + wC.getD j 0 * (wAs.getD j []).getD i 0) 0)
        = ∑ i in Finset.range m, ∑ j in Finset.range n,
            wC.getD j 0 * (wAs.getD j []).getD i 0 :=
          Finset.sum_congr rfl (fun i _ => hrow i)
      _ = ∑ j in Finset.range n, ∑ i in Finset.range m,
            wC.getD j 0 * (wAs.getD j []).getD i 0 := Finset.sum_comm
      _ = ∑ j in Finset.range n, wC.getD j 0 *
            ∑ i in Finset.range m, (wAs.getD j []).getD i 0 :=
          Finset.sum_congr rfl (fun j _ => (Finset.mul_sum _ _ _).symm)
      _ = ∑ j in Finset.range n, wC.getD j 0 * 1 := by
          refine Finset.sum_congr rfl (fun j hj => ?_)
          have hj' : j < wAs.length := by rw [hAl]; exact Finset.mem_range.1 hj
          have hmem : wAs.getD j [] ∈ wAs := by
            rw [List.getD_eq_getElem _ _ hj']
            exact List.getElem_mem hj'
          obtain ⟨hlen, hsum⟩ := hA _ hmem
          have : ∑ i in Finset.range m, (wAs.getD j []).getD i 0 = 1 := by
            rw [← hlen, ← sum_eq_range_getD, hsum]
          rw [this]
      _ = 1 := by
          simp only [mul_one]
          rw [show (∑ j in Finset.range n, wC.getD j 0) = wC.sum from by
            rw [sum_eq_range_getD, hCl], hCs]

/-- Witness for C6 with two criteria and two alternatives. -/
theorem aggregateScores_convex_witness :
    (([1/2, 1/2] : List ℚ).length = 2 ∧ ([1/2, 1/2] : List ℚ).sum = 1 ∧
      ([[1/2, 1/2], [1/4, 3/4]] : List (List ℚ)).length = 2 ∧
      (∀ w ∈ ([[1/2, 1/2], [1/4, 3/4]] : List (List ℚ)), w.length = 2 ∧ w.sum = 1)) ∧
    ((∀ i < 2, (aggregateScores 2 2 [1/2, 1/2] [[1/2, 1/2], [1/4, 3/4]]).getD i 0 =
        ∑ j in Finset.range 2,
          ([1/2, 1/2] : List ℚ).getD j 0 *
            (([[1/2, 1/2], [1/4, 3/4]] : List (List ℚ)).getD j []).getD i 0) ∧
      (aggregateScores 2 2 [1/2, 1/2] [[1/2, 1/2], [1/4, 3/4]]).sum = 1) := by
  have hA : ∀ w ∈ ([[1/2, 1/2], [1/4, 3/4]] : List (List ℚ)), w.length = 2 ∧ w.sum = 1 := by
    intro w hw
    rcases List.mem_cons.1 hw with rfl | hw
    · norm_num
    · rcases List.mem_cons.1 hw with rfl | hw
      · norm_num
      · simp at hw
  exact ⟨⟨by norm_num, by norm_num, by norm_num, hA⟩,
    aggregateScores_convex 2 2 _ _ (by norm_num) (by norm_num) (by norm_num) hA⟩

/-! ### C7: the ranking is a stable descending sort of the scores -/

theorem pairwise_fst_lt_enumFrom {β : Type} (l : List β) :
    ∀ k : ℕ, (l.enumFrom k).Pairwise (fun a b => a.1 < b.1) := by
  induction l with
  | nil => intro k; simp
  | cons a t ih =>
    intro k
    refine List.Pairwise.cons (fun y hy => ?_) (ih (k + 1))
    have := List.le_fst_of_mem_enumFrom hy
    omega

theorem pairwise_stbl_orderedInsert (x : ℕ × String × ℚ) :
    ∀ S : List (ℕ × String × ℚ),
      S.Pairwise (fun a b => b.2.2 ≤ a.2.2 ∧ (a.2.2 = b.2.2 → a.1 < b.1)) →
      (∀ y ∈ S, x.1 < y.1) →
      (List.orderedInsert (fun a b => b.2.2 ≤ a.2.2) x S).Pairwise
        (fun a b => b.2.2 ≤ a.2.2 ∧ (a.2.2 = b.2.2 → a.1 < b.1)) := by
  intro S
  induction S with
  | nil =>
    intro _ _
    simp [List.orderedInsert]
  | cons b S' ih =>
    intro hP hidx
    rw [List.orderedInsert]
    obtain ⟨hb, hS'⟩ := List.pairwise_cons.1 hP
    split_ifs with hxb
    · refine List.pairwise_cons.2 ⟨fun y hy => ?_, hP⟩
      rcases List.mem_cons.1 hy with h1 | h1
      · rw [h1]
        exact ⟨hxb, fun _ => hidx b (List.mem_cons_self _ _)⟩
      · exact ⟨le_trans (hb y h1).1 hxb, fun _ => hidx y (List.mem_cons_of_mem _ h1)⟩
    · refine List.pairwise_cons.2 ⟨fun y hy => ?_, ?_⟩
      · rcases (List.mem_orderedInsert _).1 hy with h1 | h1
        · rw [h1]
          have hlt : x.2.2 < b.2.2 := lt_of_not_le hxb
          exact ⟨le_of_lt hlt, fun he => absurd he.symm (ne_of_lt hlt)⟩
        · exact hb y h1
      · exact ih hS' (fun y hy => hidx y (List.mem_cons_of_mem _ hy))

theorem pairwise_stbl_insertionSort :
    ∀ l : List (ℕ × String × ℚ),
      l.Pairwise (fun a b => a.1 < b.1) →
      (List.insertionSort (fun a b => b.2.2 ≤ a.2.2) l).Pairwise
        (fun a b => b.2.2 ≤ a.2.2 ∧ (a.2.2 = b.2.2 → a.1 < b.1)) := by
  intro l
  induction l with
  | nil => intro _; simp
  | cons a t ih =>
    intro h
    obtain ⟨h1, h2⟩ := List.pairwise_cons.1 h
    rw [List.insertionSort]
    refine pairwise_stbl_orderedInsert a _ (ih h2) (fun y hy => ?_)
    exact h1 y ((List.mem_insertionSort _).1 hy)

set_option maxHeartbeats 800000 in
/-- C7: the ranking built by `computeResults` is the list of
(alternative, score) pairs sorted by score descending, with equal scores
kept in input order: it is the projection of an index-annotated list `R`
that is a permutation of the annotated input and is pairwise ordered by
"later score ≤ earlier score, and on ties the original index increases". -/
theorem computeResults_ranking (names : List String) (scores : List ℚ)
    (h : scores.length = names.length) :
    ∃ R : List (ℕ × String × ℚ),
      R.Perm (names.enum.map (fun p => (p.1, p.2, scores.getD p.1 0))) ∧
      R.Pairwise (fun a b => b.2.2 ≤ a.2.2 ∧ (a.2.2 = b.2.2 → a.1 < b.1)) ∧
      rankingOf names scores = R.map (fun t => (t.2.1, t.2.2)) := by
  refine ⟨List.insertionSort (fun a b => b.2.2 ≤ a.2.2)
      (names.enum.map (fun p => (p.1, p.2, scores.getD p.1 0))),
    List.perm_insertionSort _ _, ?_, ?_⟩
  · apply pairwise_stbl_insertionSort
    refine List.Pairwise.map _ (fun a b hab => hab) ?_
    exact pairwise_fst_lt_enumFrom names 0
  · rw [rankingOf,
      List.map_insertionSort (fun a b : ℕ × String × ℚ => b.2.2 ≤ a.2.2)
        (fun a b : String × ℚ => b.2 ≤ a.2) (fun t : ℕ × String × ℚ => (t.2.1, t.2.2))
        (names.enum.map (fun p => (p.1, p.2, scores.getD p.1 0)))
        (fun a _ b _ => Iff.rfl), List.map_map]
    rfl

/-- Witness for C7: scores `[1/4, 1/2, 1/4]` over three alternatives (a
tie between the first and third). -/
theorem computeResults_ranking_witness :
    ([1/4, 1/2, 1/4] : List ℚ).length = (["A", "B", "C"] : List String).length ∧
    (∃ R : List (ℕ × String × ℚ),
      R.Perm ((["A", "B", "C"] : List String).enum.map
        (fun p => (p.1, p.2, ([1/4, 1/2, 1/4] : List ℚ).getD p.1 0))) ∧
      R.Pairwise (fun a b => b.2.2 ≤ a.2.2 ∧ (a.2.2 = b.2.2 → a.1 < b.1)) ∧
      rankingOf ["A", "B", "C"] [1/4, 1/2, 1/4] = R.map (fun t => (t.2.1, t.2.2))) :=
  ⟨by norm_num, computeResults_ranking _ _ (by norm_num)⟩

/-! ### C3: on positive reciprocal matrices the solve result is valid -/

theorem matVec_getD (A : List (List ℚ)) (w : List ℚ) {i : ℕ} (hi : i < A.length) :
    (matVec A w).getD i 0 =
      ∑ j in Finset.range A.length, entry A i j * w.getD j 0 := by
  rw [matVec, getD_map_range _ _ hi, foldl_add_eq, zero_add, sum_map_range]

theorem matVec_getD_pos (A : List (List ℚ)) (hn : 1 ≤ A.length)
    (hpos : PosEntries A.length A) (w : List ℚ)
    (hw : ∀ i < A.length, 0 < w.getD i 0) {i : ℕ} (hi : i < A.length) :
    0 < (matVec A w).getD i 0 := by
  rw [matVec_getD A w hi]
  refine Finset.sum_pos (fun j hj => ?_) (Finset.nonempty_range_iff.2 (by omega))
  have hj' : j < A.length := Finset.mem_range.1 hj
  exact mul_pos (hpos i hi j hj') (hw j hj')

theorem matVec_sum_pos (A : List (List ℚ)) (hn : 1 ≤ A.length)
    (hpos : PosEntries A.length A) (w : List ℚ)
    (hw : ∀ i < A.length, 0 < w.getD i 0) :
    0 < (matVec A w).foldl (fun a b => a + b) 0 := by
  rw [foldl_plain_add, zero_add, matVec, sum_map_range]
  refine Finset.sum_pos (fun i hi => ?_) (Finset.nonempty_range_iff.2 (by omega))
  have hi' : i < A.length := Finset.mem_range.1 hi
  rw [foldl_add_eq, zero_add, sum_map_range]
  refine Finset.sum_pos (fun j hj => ?_) (Finset.nonempty_range_iff.2 (by omega))
  exact mul_pos (hpos i hi' j (Finset.mem_range.1 hj)) (hw j (Finset.mem_range.1 hj))

theorem powerStep_invariant (A : List (List ℚ)) (hn : 1 ≤ A.length)
    (hpos : PosEntries A.length A) (w : List ℚ)
    (hw : ∀ i < A.length, 0 < w.getD i 0) :
    ((matVec A w).map (fun x => x / (matVec A w).foldl (fun a b => a + b) 0)).length =
        A.length ∧
    (∀ i < A.length,
      0 < ((matVec A w).map
        (fun x => x / (matVec A w).foldl (fun a b => a + b) 0)).getD i 0) ∧
    ((matVec A w).map (fun x => x / (matVec A w).foldl (fun a b => a + b) 0)).sum = 1 := by
  have hS : 0 < (matVec A w).foldl (fun a b => a + b) 0 := matVec_sum_pos A hn hpos w hw
  have hmap : (matVec A w).map (fun x => x / (matVec A w).foldl (fun a b => a + b) 0) =
      (List.range A.length).map
        (fun i => ((List.range A.length).foldl
          (fun s j => s + entry A i j * w.getD j 0) 0) /
            (matVec A w).foldl (fun a b => a + b) 0) := by
    rw [matVec, List.map_map]
    rfl
  refine ⟨?_, fun i hi => ?_, ?_⟩
  · simp [hmap]
  · rw [hmap, getD_map_range _ _ hi]
    refine div_pos ?_ hS
    have := matVec_getD_pos A hn hpos w hw hi
    rwa [matVec, getD_map_range _ _ hi] at this
  · rw [hmap, sum_map_range, ← Finset.sum_div]
    have hnum : ∑ i in Finset.range A.length,
        (List.range A.length).foldl (fun s j => s + entry A i j * w.getD j 0) 0 =
          (matVec A w).foldl (fun a b => a + b) 0 := by
      rw [foldl_plain_add, zero_add, matVec, sum_map_range]
    rw [hnum, div_self (ne_of_gt hS)]

theorem powerLoop_invariant (A : List (List ℚ)) (tol : ℚ) (hn : 1 ≤ A.length)
    (hpos : PosEntries A.length A) :
    ∀ (fuel : ℕ) (w : List ℚ),
      w.length = A.length → (∀ i < A.length, 0 < w.getD i 0) → w.sum = 1 →
      ((powerLoop A tol fuel w).1.length = A.length ∧
        (∀ i < A.length, 0 < (powerLoop A tol fuel w).1.getD i 0) ∧
        (powerLoop A tol fuel w).1.sum = 1) := by
  intro fuel
  induction fuel with
  | zero =>
    intro w h1 h2 h3
    exact ⟨h1, h2, h3⟩
  | succ f ih =>
    intro w h1 h2 h3
    have hstep := powerStep_invariant A hn hpos w h2
    simp only [powerLoop]
    split_ifs with hd
    · exact hstep
    · exact ih _ hstep.1 hstep.2.1 hstep.2.2

theorem add_ge_two_of_mul_eq_one (x y : ℚ) (hx : 0 < x) (hxy : x * y = 1) :
    2 ≤ x + y := by
  nlinarith [sq_nonneg (x - 1), hx, hxy]

set_option maxHeartbeats 1000000 in
theorem lambda_fold_ge (A : List (List ℚ)) (hn : 1 ≤ A.length)
    (hpos : PosEntries A.length A) (hrec : Reciprocal A.length A)
    (w : List ℚ) (hw : ∀ i < A.length, 0 < w.getD i 0) :
    (A.length : ℚ) ≤
      ((List.range A.length).foldl
        (fun a i => a + (matVec A w).getD i 0 / w.getD i 0) 0) / A.length := by
  have hn' : (0 : ℚ) < A.length := by exact_mod_cast (by omega : 0 < A.length)
  rw [foldl_add_eq, zero_add, sum_map_range, le_div_iff hn']
  have hterm : ∀ i ∈ Finset.range A.length,
      (matVec A w).getD i 0 / w.getD i 0 =
        ∑ j in Finset.range A.length,
          entry A i j * w.getD j 0 / w.getD i 0 := by
    intro i hi
    rw [matVec_getD A w (Finset.mem_range.1 hi), Finset.sum_div]
  rw [Finset.sum_congr rfl hterm]
  have hswap : (∑ i in Finset.range A.length, ∑ j in Finset.range A.length,
      entry A j i * w.getD i 0 / w.getD j 0) =
      ∑ i in Finset.range A.length, ∑ j in Finset.range A.length,
        entry A i j * w.getD j 0 / w.getD i 0 :=
    Finset.sum_comm
  have hpair : ∀ i ∈ Finset.range A.length, ∀ j ∈ Finset.range A.length,
      2 ≤ entry A i j * w.getD j 0 / w.getD i 0 +
        entry A j i * w.getD i 0 / w.getD j 0 := by
    intro i hi j hj
    have hi' : i < A.length := Finset.mem_range.1 hi
    have hj' : j < A.length := Finset.mem_range.1 hj
    have ha : 0 < entry A i j := hpos i hi' j hj'
    have hwi : 0 < w.getD i 0 := hw i hi'
    have hwj : 0 < w.getD j 0 := hw j hj'
    refine add_ge_two_of_mul_eq_one _ _ (by positivity) ?_
    have key : ∀ a b c : ℚ, a ≠ 0 → b ≠ 0 → c ≠ 0 →
        a * b / c * (1 / a * c / b) = 1 := by
      intro a b c ha' hb' hc'
      field_simp
    rw [hrec i hi' j hj']
    exact key _ _ _ ha.ne' hwj.ne' hwi.ne'
  have h2T : (∑ i in Finset.range A.length, ∑ j in Finset.range A.length,
      (entry A i j * w.getD j 0 / w.getD i 0 +
        entry A j i * w.getD i 0 / w.getD j 0)) =
      (∑ i in Finset.range A.length, ∑ j in Finset.range A.length,
        entry A i j * w.getD j 0 / w.getD i 0) +
      ∑ i in Finset.range A.length, ∑ j in Finset.range A.length,
        entry A i j * w.getD j 0 / w.getD i 0 := by
    calc (∑ i in Finset.range A.length, ∑ j in Finset.range A.length,
        (entry A i j * w.getD j 0 / w.getD i 0 +
          entry A j i * w.getD i 0 / w.getD j 0))
        = ∑ i in Finset.range A.length,
            ((∑ j in Finset.range A.length, entry A i j * w.getD j 0 / w.getD i 0) +
              ∑ j in Finset.range A.length, entry A j i * w.getD i 0 / w.getD j 0) :=
          Finset.sum_congr rfl (fun i _ => Finset.sum_add_distrib)
      _ = (∑ i in Finset.range A.length, ∑ j in Finset.range A.length,
            entry A i j * w.getD j 0 / w.getD i 0) +
          ∑ i in Finset.range A.length, ∑ j in Finset.range A.length,
            entry A j i * w.getD i 0 / w.getD j 0 := Finset.sum_add_distrib
      _ = _ := by rw [hswap]
  have hbound : (∑ i in Finset.range A.length, ∑ j in Finset.range A.length, (2 : ℚ)) ≤
      ∑ i in Finset.range A.length, ∑ j in Finset.range A.length,
        (entry A i j * w.getD j 0 / w.getD i 0 +
          entry A j i * w.getD i 0 / w.getD j 0) :=
    Finset.sum_le_sum (fun i hi => Finset.sum_le_sum (fun j hj => hpair i hi j hj))
  have hconst : (∑ i in Finset.range A.length,
      ∑ j in Finset.range A.length, (2 : ℚ)) =
      2 * ((A.length : ℚ) * A.length) := by
    simp [Finset.sum_const, Finset.card_range, nsmul_eq_mul]
    ring
  rw [hconst, h2T] at hbound
  linarith [hbound]

theorem RI_nonneg (n : ℕ) : 0 ≤ RI n := by
  rw [RI]
  split_ifs <;> norm_num

theorem cr_nonneg_of_lambda_ge (A : List (List ℚ)) (hn : 1 ≤ A.length) (lam : ℚ)
    (hlam : (A.length : ℚ) ≤ lam) : 0 ≤ (consistency A lam).cr := by
  rw [consistency]
  by_cases hri : RI A.length = 0
  · simp [hri]
  · have h1 : A.length ≠ 1 := by
      intro he
      rw [he] at hri
      simp [RI] at hri
    have h2 : 2 ≤ A.length := by omega
    have hcast : (0 : ℚ) < (A.length : ℚ) - 1 := by
      have : (2 : ℚ) ≤ (A.length : ℚ) := by exact_mod_cast h2
      linarith
    have hci : 0 ≤ (lam - A.length) / ((A.length : ℚ) - 1) := by
      apply div_nonneg (by linarith) (le_of_lt hcast)
    simp only [jsDiv, if_neg (ne_of_gt hcast), hri, if_false]
    exact div_nonneg (by simpa using hci) (RI_nonneg A.length)

set_option maxHeartbeats 800000 in
/-- C3: for every matrix of order `n ≥ 1` with strictly positive entries
satisfying reciprocity, `ahpSolve` returns `n` non-negative weights
summing to 1, a `lambdaMax ≥ n`, and a `cr ≥ 0` (all in the exact
arithmetic of the embedding). -/
theorem ahpSolve_valid (A : List (List ℚ)) (hn : 1 ≤ A.length)
    (hpos : PosEntries A.length A) (hrec : Reciprocal A.length A) :
    (ahpSolve A).weights.length = A.length ∧
    (∀ x ∈ (ahpSolve A).weights, 0 ≤ x) ∧
    (ahpSolve A).weights.sum = 1 ∧
    (A.length : ℚ) ≤ (ahpSolve A).lambdaMax ∧
    0 ≤ (ahpSolve A).cr := by
  have hn0 : (0 : ℚ) < A.length := by exact_mod_cast (by omega : 0 < A.length)
  have hw0len : (List.replicate A.length (1 / (A.length : ℚ))).length = A.length := by
    simp
  have hw0pos : ∀ i < A.length,
      0 < (List.replicate A.length (1 / (A.length : ℚ))).getD i 0 := by
    intro i hi
    rw [getD_replicate_lt _ hi]
    positivity
  have hw0sum : (List.replicate A.length (1 / (A.length : ℚ))).sum = 1 := by
    rw [List.sum_replicate, nsmul_eq_mul, mul_one_div, div_self (ne_of_gt hn0)]
  have hinv := powerLoop_invariant A tolDefault hn hpos maxIterDefault
    (List.replicate A.length (1 / (A.length : ℚ))) hw0len hw0pos hw0sum
  have hweq : (ahpSolve A).weights =
      (powerLoop A tolDefault maxIterDefault
        (List.replicate A.length (1 / (A.length : ℚ)))).1 := rfl
  have hleq : (ahpSolve A).lambdaMax =
      ((List.range A.length).foldl
        (fun a i => a + (matVec A (powerLoop A tolDefault maxIterDefault
          (List.replicate A.length (1 / (A.length : ℚ)))).1).getD i 0 /
            (powerLoop A tolDefault maxIterDefault
              (List.replicate A.length (1 / (A.length : ℚ)))).1.getD i 0) 0) /
        A.length := rfl
  have hlam : (A.length : ℚ) ≤ (ahpSolve A).lambdaMax := by
    rw [hleq]
    exact lambda_fold_ge A hn hpos hrec _ hinv.2.1
  have hcreq : (ahpSolve A).cr = (consistency A ((ahpSolve A).lambdaMax)).cr := rfl
  refine ⟨by rw [hweq]; exact hinv.1, ?_, by rw [hweq]; exact hinv.2.2, hlam, ?_⟩
  · intro x hx
    rw [hweq] at hx
    obtain ⟨i, hilt, hival⟩ := List.mem_iff_getElem.1 hx
    have hi' : i < A.length := by
      rw [← hinv.1]; exact hilt
    have := hinv.2.1 i hi'
    rw [List.getD_eq_getElem _ _ hilt] at this
    rw [← hival]
    exact le_of_lt this
  · rw [hcreq]
    exact cr_nonneg_of_lambda_ge A hn _ hlam

/-- Witness for C3 at the 2×2 reciprocal matrix `[[1, 2], [1/2, 1]]`. -/
theorem ahpSolve_valid_witness :
    (1 ≤ ([[1, 2], [1/2, 1]] : List (List ℚ)).length ∧
      PosEntries 2 [[1, 2], [1/2, 1]] ∧ Reciprocal 2 [[1, 2], [1/2, 1]]) ∧
    ((ahpSolve [[1, 2], [1/2, 1]]).weights.length =
        ([[1, 2], [1/2, 1]] : List (List ℚ)).length ∧
      (∀ x ∈ (ahpSolve [[1, 2], [1/2, 1]]).weights, 0 ≤ x) ∧
      (ahpSolve [[1, 2], [1/2, 1]]).weights.sum = 1 ∧
      ((([[1, 2], [1/2, 1]] : List (List ℚ)).length : ℚ) ≤
        (ahpSolve [[1, 2], [1/2, 1]]).lambdaMax) ∧
      0 ≤ (ahpSolve [[1, 2], [1/2, 1]]).cr) := by
  have hpos : PosEntries 2 [[1, 2], [1/2, 1]] := by
    intro i hi j hj
    interval_cases i <;> interval_cases j <;> norm_num [entry]
  have hrec : Reciprocal 2 [[1, 2], [1/2, 1]] := by
    intro i hi j hj
    interval_cases i <;> interval_cases j <;> norm_num [entry]
  exact ⟨⟨by norm_num, hpos, hrec⟩,
    ahpSolve_valid [[1, 2], [1/2, 1]] (by norm_num) hpos hrec⟩

/-! ### C9: `loadState` repairs matrix dimensions (outer levels only) -/

theorem jLen_identityMatrixJ (n : ℕ) : jLen (identityMatrixJ n) = n := by
  simp [identityMatrixJ, jLen]

theorem mwf_initMatrices (st : AppState) : MatricesWellFormed (initMatrices st) := by
  refine ⟨rfl, ?_, rfl, ?_, ?_⟩
  · exact jLen_identityMatrixJ _
  · simp [initMatrices, jLen]
  · intro m hm
    simp only [initMatrices, jElems] at hm
    obtain ⟨c, _, rfl⟩ := List.mem_map.1 hm
    exact ⟨rfl, jLen_identityMatrixJ _⟩

theorem mwf_ite (s : AppState) (c : Prop) [Decidable c]
    (h : ¬ c → MatricesWellFormed s) :
    MatricesWellFormed (if c then initMatrices s else s) := by
  split_ifs with hc
  · exact mwf_initMatrices s
  · exact h hc

set_option maxHeartbeats 800000 in
/-- C9 amended: for every parsed persisted state with the required fields,
`loadState` returns a state whose matrices satisfy the outer-dimension
discipline: `criteriaMatrix` is an array of `|criteria|` rows and
`altMatrices` holds exactly `|criteria|` arrays of `|alternatives|` rows
each; any fragment failing these outer checks is discarded and rebuilt
from the all-ones neutral state, and no error is ever surfaced (the
function is total).  Row lengths, however, are never validated, so the
resulting matrices need not be square. -/
theorem loadState_outer_dims (raw : Option RawState) :
    MatricesWellFormed (loadState raw) := by
  rcases raw with _ | st0
  · exact mwf_initMatrices _
  · obtain ⟨hp, hcs, hal, cm, am, hidx⟩ := st0
    rcases hp with _ | p
    · exact mwf_initMatrices _
    · rcases hcs with _ | cs
      · exact mwf_initMatrices _
      · rcases hal with _ | al
        · exact mwf_initMatrices _
        · simp only [loadState]
          apply mwf_ite
          intro hE
          apply mwf_ite
          intro hD
          apply mwf_ite
          intro hC
          apply mwf_ite
          intro hB
          rw [if_neg hB] at hC hD hE
          rw [if_neg hC] at hD hE
          rw [if_neg hD] at hE
          obtain ⟨hcm, ham⟩ := not_not.1 hB
          dsimp only at hC hD hE
          have hC' : jLen cm = cs.length := not_not.1 hC
          have hD' : jLen am = cs.length := not_not.1 hD
          have hE0 : (jElems am).any
              (fun m => !isArr m || decide (jLen m ≠ al.length)) = false := by
            revert hE
            cases (jElems am).any (fun m => !isArr m || decide (jLen m ≠ al.length)) <;> simp
          refine ⟨hcm, hC', ham, hD', fun m hm => ?_⟩
          have hf := List.any_eq_false.1 hE0 m hm
          have h1 : (!isArr m) = false ∧ decide (jLen m ≠ al.length) = false := by
            revert hf
            cases isArr m <;> cases hdec : decide (jLen m ≠ al.length) <;> simp
          refine ⟨by simpa using h1.1, ?_⟩
          have := of_decide_eq_false h1.2
          exact not_not.1 this

/-- C9 counterexample: a persisted state with 3 criteria whose
`criteriaMatrix` has 3 rows of length 1 passes every check in `loadState`
and is returned unchanged — the result is not a square matrix of
dimension `|criteria|`. -/
theorem loadState_keeps_ragged_rows :
    (loadState (some ⟨some ⟨"p", "g"⟩, some ["a", "b", "c"], some ["x", "y"],
        JVal.arr [JVal.arr [JVal.num 1], JVal.arr [JVal.num 1], JVal.arr [JVal.num 1]],
        JVal.arr [JVal.arr [JVal.arr [], JVal.arr []],
          JVal.arr [JVal.arr [], JVal.arr []],
          JVal.arr [JVal.arr [], JVal.arr []]],
        none⟩)).criteria.length = 3 ∧
    jLen (loadState (some ⟨some ⟨"p", "g"⟩, some ["a", "b", "c"], some ["x", "y"],
        JVal.arr [JVal.arr [JVal.num 1], JVal.arr [JVal.num 1], JVal.arr [JVal.num 1]],
        JVal.arr [JVal.arr [JVal.arr [], JVal.arr []],
          JVal.arr [JVal.arr [], JVal.arr []],
          JVal.arr [JVal.arr [], JVal.arr []]],
        none⟩)).criteriaMatrix = 3 ∧
    (jElems (loadState (some ⟨some ⟨"p", "g"⟩, some ["a", "b", "c"], some ["x", "y"],
        JVal.arr [JVal.arr [JVal.num 1], JVal.arr [JVal.num 1], JVal.arr [JVal.num 1]],
        JVal.arr [JVal.arr [JVal.arr [], JVal.arr []],
          JVal.arr [JVal.arr [], JVal.arr []],
          JVal.arr [JVal.arr [], JVal.arr []]],
        none⟩)).criteriaMatrix).map jLen = [1, 1, 1] :=
  ⟨rfl, rfl, rfl⟩

/-- Witness for C9 (amended), applying the theorem at the empty/missing
persisted snapshot. -/
theorem loadState_outer_dims_witness : MatricesWellFormed (loadState none) :=
  loadState_outer_dims none

/-! ### C10: diagnostics are vacuous below order 3 -/

set_option maxHeartbeats 800000 in
/-- C10: with at most two labels no index `k` distinct from both members
of a pair exists, so `inconsistencyHints` returns the empty list for
every matrix and every `topK`. -/
theorem inconsistencyHints_small (labels : List String) (A : List (List ℝ)) (topK : ℕ)
    (h : labels.length ≤ 2) :
    inconsistencyHints Real.log labels A topK = [] := by
  have h3 : labels.length = 0 ∨ labels.length = 1 ∨ labels.length = 2 := by omega
  rcases h3 with h0 | h1 | h2
  · simp [inconsistencyHints, h0]
  · simp [inconsistencyHints, h1]
  · have hbw : bestWitnessFold Real.log A 2 0 1 = (0, none) := by
      have hr : List.range 2 = [0, 1] := rfl
      rw [bestWitnessFold, hr]
      simp [bwStep]
    have hrange : List.range 2 = [0, 1] := rfl
    have hr1 : List.range' 1 1 = [1] := rfl
    have hr2 : List.range' 2 0 = [] := rfl
    simp [inconsistencyHints, h2, hrange, hr1, hr2, hbw, List.flatMap_cons,
      List.flatMap_nil, List.filterMap_cons]

/-- Witness for C10 with two labels. -/
theorem inconsistencyHints_small_witness :
    (["x", "y"] : List String).length ≤ 2 ∧
    inconsistencyHints Real.log ["x", "y"] ([[1, 1], [1, 1]] : List (List ℝ)) 3 = [] :=
  ⟨by norm_num, inconsistencyHints_small ["x", "y"] [[1, 1], [1, 1]] 3 (by norm_num)⟩

/-! ### C5: characterisation of the recorded diagnostics -/

theorem mem_witnessSet {α : Type} [LinearOrderedField α] {A : List (List α)} {n i j k : ℕ} :
    k ∈ witnessSet A n i j ↔ witOK A n i j k := by
  simp [witnessSet, witOK, Finset.mem_filter, Finset.mem_range]

set_option maxHeartbeats 1600000 in
/-- Invariant of the witness loop: the accumulator holds 0 and no witness
while every usable processed witness has zero disagreement, or the
first-maximal strictly positive disagreement seen so far together with a
witness attaining it. -/
theorem bwf_aux {α : Type} [LinearOrderedField α] (lg : α → α) (A : List (List α))
    (i j : ℕ) :
    ∀ ks : List ℕ,
      0 ≤ (ks.foldl (bwStep lg A i j) (0, none)).1 ∧
      ((ks.foldl (bwStep lg A i j) (0, none)).2 = none →
        (ks.foldl (bwStep lg A i j) (0, none)).1 = 0 ∧
        ∀ k ∈ ks, ¬(k = i ∨ k = j) → 0 < entry A i k * entry A k j →
          disag lg A i j k = 0) ∧
      ∀ k₀, (ks.foldl (bwStep lg A i j) (0, none)).2 = some k₀ →
        k₀ ∈ ks ∧ ¬(k₀ = i ∨ k₀ = j) ∧ 0 < entry A i k₀ * entry A k₀ j ∧
        disag lg A i j k₀ = (ks.foldl (bwStep lg A i j) (0, none)).1 ∧
        0 < (ks.foldl (bwStep lg A i j) (0, none)).1 ∧
        ∀ k ∈ ks, ¬(k = i ∨ k = j) → 0 < entry A i k * entry A k j →
          disag lg A i j k ≤ (ks.foldl (bwStep lg A i j) (0, none)).1 := by
  intro ks
  induction ks using List.reverseRecOn with
  | nil =>
    refine ⟨le_refl 0, fun _ => ⟨rfl, by simp⟩, fun k₀ h => ?_⟩
    simp at h
  | append_singleton ks k ih =>
    rw [List.foldl_append, List.foldl_cons, List.foldl_nil]
    obtain ⟨ih0, ihn, ihs⟩ := ih
    simp only [bwStep]
    split_ifs with hskip hvia hlt
    · refine ⟨ih0, fun hn => ?_, fun k₀ hs => ?_⟩
      · obtain ⟨h1, h2⟩ := ihn hn
        refine ⟨h1, fun k' hk' hk'1 hk'2 => ?_⟩
        rcases List.mem_append.1 hk' with h | h
        · exact h2 k' h hk'1 hk'2
        · rw [List.mem_singleton.1 h] at hk'1
          exact absurd hskip hk'1
      · obtain ⟨m1, m2, m3, m4, m5, m6⟩ := ihs k₀ hs
        refine ⟨List.mem_append_left _ m1, m2, m3, m4, m5,
          fun k' hk' hk'1 hk'2 => ?_⟩
        rcases List.mem_append.1 hk' with h | h
        · exact m6 k' h hk'1 hk'2
        · rw [List.mem_singleton.1 h] at hk'1
          exact absurd hskip hk'1
    · refine ⟨ih0, fun hn => ?_, fun k₀ hs => ?_⟩
      · obtain ⟨h1, h2⟩ := ihn hn
        refine ⟨h1, fun k' hk' hk'1 hk'2 => ?_⟩
        rcases List.mem_append.1 hk' with h | h
        · exact h2 k' h hk'1 hk'2
        · rw [List.mem_singleton.1 h] at hk'2
          exact absurd hk'2 (not_lt.2 hvia)
      · obtain ⟨m1, m2, m3, m4, m5, m6⟩ := ihs k₀ hs
        refine ⟨List.mem_append_left _ m1, m2, m3, m4, m5,
          fun k' hk' hk'1 hk'2 => ?_⟩
        rcases List.mem_append.1 hk' with h | h
        · exact m6 k' h hk'1 hk'2
        · rw [List.mem_singleton.1 h] at hk'2
          exact absurd hk'2 (not_lt.2 hvia)
    · refine ⟨le_of_lt (lt_of_le_of_lt ih0 hlt), fun hn => absurd hn (by simp),
        fun k₀ hs => ?_⟩
      have hk0 : k₀ = k := (Option.some.inj hs).symm
      subst hk0
      refine ⟨List.mem_append_right _ (List.mem_singleton_self k₀), hskip,
        lt_of_not_le hvia, rfl, lt_of_le_of_lt ih0 hlt,
        fun k' hk' hk'1 hk'2 => ?_⟩
      rcases List.mem_append.1 hk' with h | h
      · rcases hr2 : (ks.foldl (bwStep lg A i j) (0, none)).2 with _ | k₁
        · have hz := (ihn hr2).2 k' h hk'1 hk'2
          rw [hz]
          exact le_of_lt (lt_of_le_of_lt ih0 hlt)
        · exact le_trans ((ihs k₁ hr2).2.2.2.2.2 k' h hk'1 hk'2) (le_of_lt hlt)
      · rw [List.mem_singleton.1 h]
        exact le_refl _
    · refine ⟨ih0, fun hn => ?_, fun k₀ hs => ?_⟩
      · obtain ⟨h1, h2⟩ := ihn hn
        refine ⟨h1, fun k' hk' hk'1 hk'2 => ?_⟩
        rcases List.mem_append.1 hk' with h | h
        · exact h2 k' h hk'1 hk'2
        · rw [List.mem_singleton.1 h]
          have hd0 := not_lt.1 hlt
          rw [h1] at hd0
          exact le_antisymm hd0 (abs_nonneg _)
      · obtain ⟨m1, m2, m3, m4, m5, m6⟩ := ihs k₀ hs
        refine ⟨List.mem_append_left _ m1, m2, m3, m4, m5,
          fun k' hk' hk'1 hk'2 => ?_⟩
        rcases List.mem_append.1 hk' with h | h
        · exact m6 k' h hk'1 hk'2
        · rw [List.mem_singleton.1 h]
          exact not_lt.1 hlt

set_option maxHeartbeats 1600000 in
/-- Projected to `(i, j, score)`, the option produced by the pair loop of
`inconsistencyHints` at `(i,j)` is exactly the spec-side recorded entry. -/
theorem codePair_proj {α : Type} [LinearOrderedField α] (lg : α → α) (A : List (List α))
    (labels : List String) (n i j : ℕ) :
    Option.map (fun h : Hint α => (h.i, h.j, h.score))
      (let direct := entry A i j
       if direct ≤ 0 then none
       else
         match bestWitnessFold lg A n i j with
         | (best, some bk) =>
           some ⟨best, i, j, bk,
             labels.getD i "" ++ " vs " ++ labels.getD j "" ++
               " (check with " ++ labels.getD bk "" ++ ")"⟩
         | (_, none) => none) =
    (if 0 < entry A i j ∧ ∃ k ∈ witnessSet A n i j, 0 < disag lg A i j k
     then some (i, j, maxDisag lg A n i j)
     else none) := by
  dsimp only
  by_cases hd : entry A i j ≤ 0
  · rw [if_pos hd, if_neg (fun hc => absurd hc.1 (not_lt.2 hd))]
    rfl
  · have hd' : 0 < entry A i j := lt_of_not_le hd
    rcases hbw : bestWitnessFold lg A n i j with ⟨b, o⟩
    have hfold : (List.range n).foldl (bwStep lg A i j) (0, none) = (b, o) := hbw
    obtain ⟨ih0, ihn, ihs⟩ := bwf_aux lg A i j (List.range n)
    rw [hfold] at ih0 ihn ihs
    rcases o with _ | k₀
    · rw [if_neg hd]
      have hno : ¬(0 < entry A i j ∧ ∃ k ∈ witnessSet A n i j, 0 < disag lg A i j k) := by
        rintro ⟨-, k, hkmem, hkpos⟩
        obtain ⟨hk1, hk2, hk3, hk4⟩ := mem_witnessSet.1 hkmem
        have hz := (ihn rfl).2 k (List.mem_range.2 hk1)
          (not_or.2 ⟨hk2, hk3⟩) hk4
        rw [hz] at hkpos
        exact absurd hkpos (lt_irrefl 0)
      rw [if_neg hno]
      rfl
    · obtain ⟨m1, m2, m3, m4, m5, m6⟩ := ihs k₀ rfl
      have hm4 : disag lg A i j k₀ = b := m4
      have hm5 : (0 : α) < b := m5
      have hk₀mem : k₀ ∈ witnessSet A n i j :=
        mem_witnessSet.2 ⟨List.mem_range.1 m1, (not_or.1 m2).1, (not_or.1 m2).2, m3⟩
      have hyes : 0 < entry A i j ∧ ∃ k ∈ witnessSet A n i j, 0 < disag lg A i j k :=
        ⟨hd', k₀, hk₀mem, by rw [hm4]; exact hm5⟩
      rw [if_neg hd, if_pos hyes]
      have hmax : maxDisag lg A n i j = b := by
        rw [maxDisag, dif_pos ⟨k₀, hk₀mem⟩]
        refine le_antisymm (Finset.sup'_le _ _ (fun k hk => ?_)) ?_
        · obtain ⟨hk1, hk2, hk3, hk4⟩ := mem_witnessSet.1 hk
          exact m6 k (List.mem_range.2 hk1) (not_or.2 ⟨hk2, hk3⟩) hk4
        · rw [← hm4]
          exact Finset.le_sup' (disag lg A i j) hk₀mem
      rw [hmax]
      rfl

set_option maxHeartbeats 1600000 in
/-- Every hint the pair loop emits carries a usable witness attaining its
score. -/
theorem codePair_some {α : Type} [LinearOrderedField α] (lg : α → α) (A : List (List α))
    (labels : List String) (n i j : ℕ) (h : Hint α)
    (heq : (let direct := entry A i j
            if direct ≤ 0 then none
            else
              match bestWitnessFold lg A n i j with
              | (best, some bk) =>
                some ⟨best, i, j, bk,
                  labels.getD i "" ++ " vs " ++ labels.getD j "" ++
                    " (check with " ++ labels.getD bk "" ++ ")"⟩
              | (_, none) => none) = some h) :
    h.i = i ∧ h.j = j ∧ witOK A n i j h.k ∧ disag lg A i j h.k = h.score := by
  dsimp only at heq
  by_cases hd : entry A i j ≤ 0
  · rw [if_pos hd] at heq
    exact absurd heq (by simp)
  · rw [if_neg hd] at heq
    rcases hbw : bestWitnessFold lg A n i j with ⟨b, o⟩
    rw [hbw] at heq
    rw [bestWitnessFold] at hbw
    obtain ⟨ih0, ihn, ihs⟩ := bwf_aux lg A i j (List.range n)
    rw [hbw] at ih0 ihn ihs
    rcases o with _ | k₀
    · exact absurd heq (by simp)
    · obtain ⟨m1, m2, m3, m4, m5, m6⟩ := ihs k₀ rfl
      have hh : h = ⟨b, i, j, k₀,
          labels.getD i "" ++ " vs " ++ labels.getD j "" ++
            " (check with " ++ labels.getD k₀ "" ++ ")"⟩ := (Option.some.inj heq).symm
      subst hh
      exact ⟨rfl, rfl,
        ⟨List.mem_range.1 m1, (not_or.1 m2).1, (not_or.1 m2).2, m3⟩, m4⟩

set_option maxHeartbeats 1600000 in
/-- Projected to `(i, j, score)`, the issue list built by the pair loop is
exactly the spec-side list of recorded entries. -/
theorem issues_map_proj {α : Type} [LinearOrderedField α] (lg : α → α)
    (A : List (List α)) (labels : List String) :
    (((List.range labels.length).flatMap
        (fun i => (List.range' (i + 1) (labels.length - (i + 1))).filterMap
          (fun j =>
            let direct := entry A i j
            if direct ≤ 0 then none
            else
              match bestWitnessFold lg A labels.length i j with
              | (best, some bk) =>
                some ⟨best, i, j, bk,
                  labels.getD i "" ++ " vs " ++ labels.getD j "" ++
                    " (check with " ++ labels.getD bk "" ++ ")"⟩
              | (_, none) => none))).map (fun h : Hint α => (h.i, h.j, h.score))) =
      specEntries lg A labels.length := by
  rw [List.map_flatMap, specEntries]
  refine congrArg _ (funext fun i => ?_)
  rw [List.map_filterMap]
  exact congrArg
    (fun g => List.filterMap g (List.range' (i + 1) (labels.length - (i + 1))))
    (funext fun j => codePair_proj lg A labels labels.length i j)

set_option maxHeartbeats 1600000 in
/-- Generic form of the C5 characterisation, over an arbitrary logarithm
function; proved in the same elaboration context as the definition. -/
theorem inconsistencyHints_spec_general {α : Type} [LinearOrderedField α] (lg : α → α)
    (labels : List String) (A : List (List α)) (topK : ℕ) :
    ∃ S : List (Hint α),
      S.Pairwise (fun a b => b.score ≤ a.score) ∧
      inconsistencyHints lg labels A topK = S.take topK ∧
      (S.map (fun h => (h.i, h.j, h.score))).Perm
        (specEntries lg A labels.length) ∧
      ∀ h ∈ S, h.i < h.j ∧ h.j < labels.length ∧
        witOK A labels.length h.i h.j h.k ∧
        disag lg A h.i h.j h.k = h.score := by
  refine ⟨List.insertionSort (fun a b : Hint α => b.score ≤ a.score)
    ((List.range labels.length).flatMap
      (fun i => (List.range' (i + 1) (labels.length - (i + 1))).filterMap
        (fun j =>
          let direct := entry A i j
          if direct ≤ 0 then none
          else
            match bestWitnessFold lg A labels.length i j with
            | (best, some bk) =>
              some ⟨best, i, j, bk,
                labels.getD i "" ++ " vs " ++ labels.getD j "" ++
                  " (check with " ++ labels.getD bk "" ++ ")"⟩
            | (_, none) => none))), ?_, rfl, ?_, ?_⟩
  · haveI ht : IsTotal (Hint α) (fun a b => b.score ≤ a.score) :=
      ⟨fun a b => le_total b.score a.score⟩
    haveI htr : IsTrans (Hint α) (fun a b => b.score ≤ a.score) :=
      ⟨fun a b c h1 h2 => le_trans h2 h1⟩
    exact List.sorted_insertionSort _ _
  · have h1 := (List.perm_insertionSort (fun a b : Hint α => b.score ≤ a.score)
      ((List.range labels.length).flatMap
        (fun i => (List.range' (i + 1) (labels.length - (i + 1))).filterMap
          (fun j =>
            let direct := entry A i j
            if direct ≤ 0 then none
            else
              match bestWitnessFold lg A labels.length i j with
              | (best, some bk) =>
                some ⟨best, i, j, bk,
                  labels.getD i "" ++ " vs " ++ labels.getD j "" ++
                    " (check with " ++ labels.getD bk "" ++ ")"⟩
              | (_, none) => none)))).map (fun h : Hint α => (h.i, h.j, h.score))
    rw [issues_map_proj lg A labels] at h1
    exact h1
  · intro h hm
    rw [List.mem_insertionSort] at hm
    obtain ⟨i, hi, hmi⟩ := List.mem_flatMap.1 hm
    obtain ⟨j, hj, hji⟩ := List.mem_filterMap.1 hmi
    obtain ⟨e1, e2, e3, e4⟩ :=
      codePair_some lg A labels labels.length i j h hji
    have hin : i < labels.length := List.mem_range.1 hi
    have hjr : i + 1 ≤ j ∧ j < i + 1 + (labels.length - (i + 1)) :=
      List.mem_range'_1.1 hj
    have hij : i < j := by omega
    have hjn : j < labels.length := by omega
    rw [e1, e2]
    exact ⟨hij, hjn, e3, e4⟩

/-- C5 amended: the hints returned by `inconsistencyHints` (with the
source's `Math.log` modelled by `Real.log`) are the top-`K` prefix of a
list `S` sorted by score descending, whose `(i, j, score)` projection is a
permutation of the spec-side recorded entries — one entry per pair `i < j`
with a strictly positive direct judgment and at least one usable witness
of strictly positive disagreement, scored by the maximal disagreement over
all usable witnesses.  (Pairs all of whose witnesses agree exactly —
disagreement 0 — are NOT recorded, which is what the `d > best` test with
`best = 0` forces.)  Every returned hint also names a usable witness
attaining its score. -/
theorem inconsistencyHints_spec (labels : List String) (A : List (List ℝ)) (topK : ℕ) :
    ∃ S : List (Hint ℝ),
      S.Pairwise (fun a b => b.score ≤ a.score) ∧
      inconsistencyHints Real.log labels A topK = S.take topK ∧
      (S.map (fun h => (h.i, h.j, h.score))).Perm
        (specEntries Real.log A labels.length) ∧
      ∀ h ∈ S, h.i < h.j ∧ h.j < labels.length ∧
        witOK A labels.length h.i h.j h.k ∧
        disag Real.log A h.i h.j h.k = h.score :=
  inconsistencyHints_spec_general Real.log labels A topK

/-- C5 counterexample: on the all-ones 3×3 matrix the pair (0,1) has a
strictly positive finite direct judgment and a usable witness (k = 2 with
`via = 1`), yet `inconsistencyHints` records nothing: every disagreement
is 0 and the `d > best` test with `best = 0` never fires. -/
theorem inconsistencyHints_zero_disagreement :
    inconsistencyHints Real.log ["a", "b", "c"]
        ([[1, 1, 1], [1, 1, 1], [1, 1, 1]] : List (List ℝ)) 3 = [] ∧
    (0 : ℝ) < entry ([[1, 1, 1], [1, 1, 1], [1, 1, 1]] : List (List ℝ)) 0 1 ∧
    witOK ([[1, 1, 1], [1, 1, 1], [1, 1, 1]] : List (List ℝ)) 3 0 1 2 := by
  refine ⟨?_, by norm_num [entry], ⟨by norm_num, by norm_num, by norm_num,
    by norm_num [entry]⟩⟩
  have hbw01 : bestWitnessFold Real.log
      ([[1, 1, 1], [1, 1, 1], [1, 1, 1]] : List (List ℝ)) 3 0 1 = (0, none) := by
    rw [bestWitnessFold, show List.range 3 = [0, 1, 2] from rfl]
    norm_num [bwStep, entry, Real.log_one]
  have hbw02 : bestWitnessFold Real.log
      ([[1, 1, 1], [1, 1, 1], [1, 1, 1]] : List (List ℝ)) 3 0 2 = (0, none) := by
    rw [bestWitnessFold, show List.range 3 = [0, 1, 2] from rfl]
    norm_num [bwStep, entry, Real.log_one]
  have hbw12 : bestWitnessFold Real.log
      ([[1, 1, 1], [1, 1, 1], [1, 1, 1]] : List (List ℝ)) 3 1 2 = (0, none) := by
    rw [bestWitnessFold, show List.range 3 = [0, 1, 2] from rfl]
    norm_num [bwStep, entry, Real.log_one]
  simp [inconsistencyHints, show List.range 3 = [0, 1, 2] from rfl,
    show List.range' 1 2 = [1, 2] from rfl, show List.range' 2 1 = [2] from rfl,
    show List.range' 3 0 = [] from rfl, hbw01, hbw02, hbw12,
    List.flatMap_cons, List.flatMap_nil, List.filterMap_cons]

/-- Witness for C5 (amended), applying the theorem at a concrete 2×2
matrix. -/
theorem inconsistencyHints_spec_witness :
    ∃ S : List (Hint ℝ),
      S.Pairwise (fun a b => b.score ≤ a.score) ∧
      inconsistencyHints Real.log ["a", "b"]
          ([[1, 2], [1/2, 1]] : List (List ℝ)) 3 = S.take 3 ∧
      (S.map (fun h => (h.i, h.j, h.score))).Perm
        (specEntries Real.log ([[1, 2], [1/2, 1]] : List (List ℝ))
          (["a", "b"] : List String).length) ∧
      ∀ h ∈ S, h.i < h.j ∧ h.j < (["a", "b"] : List String).length ∧
        witOK ([[1, 2], [1/2, 1]] : List (List ℝ))
          (["a", "b"] : List String).length h.i h.j h.k ∧
        disag Real.log ([[1, 2], [1/2, 1]] : List (List ℝ)) h.i h.j h.k = h.score :=
  inconsistencyHints_spec ["a", "b"] [[1, 2], [1/2, 1]] 3

end AHP
